import Mathlib

/-!
Verification of the Merkle-tree and inclusion-verifier core of `go-data-segment`.

The Go sources `merkleTree/merkleTree.go` and `datasegment/inclusion.go` are embedded
shallowly below.  The SHA-256 digest primitive (`crypto/sha256`, an external library)
is a parameter `truncatedHash : List Nat → Node`; byte strings are lists of byte
values.  Machine integers are modelled as `Nat`/`Int` with explicit `% 2^64`
reductions where the Go code performs wrapping `uint64` arithmetic, and the Go
`int` inputs of the proof-extraction API are modelled as `Int`.  Fallible Go
functions (returning `error` or able to panic) are modelled with `Option` or with
explicit result inductives that distinguish a returned error from a runtime panic.
-/

namespace MerkleTree

/-- `digestBytes` of `merkleTree.go`: a node is 32 bytes. -/
def digestBytes : Nat := 32

/-- `Node` of `merkleTree.go`: a 32-byte digest (`data [digestBytes]byte`);
the entries of `data` are byte values. -/
structure Node where
  data : List Nat
deriving DecidableEq, Repr

/-- The all-zero node, `[digestBytes]byte{}` in Go: the "absent sibling" sentinel. -/
def zeroNode : Node := ⟨List.replicate digestBytes 0⟩

/-- `getSiblingIdx` of `merkleTree.go`. -/
def getSiblingIdx (idx : Nat) : Nat :=
  if idx % 2 = 0 then idx + 1 else idx - 1

/-- `halfCeil` of `merkleTree.go`: `ceil(x/2)`. -/
def halfCeil (x : Nat) : Nat :=
  if x % 2 = 0 then x / 2 else 1 + x / 2

/-- `tab64` of `merkleTree.go`. -/
def tab64 : List Nat :=
  [0xFFFFFFFF00000000, 0x00000000FFFF0000, 0x000000000000FF00,
   0x00000000000000F0, 0x000000000000000C, 0x0000000000000002]

/-- The loop of `log2Ceil` of `merkleTree.go`: six table-driven steps locating the
most significant bit.  Arguments: remaining table, `value`, `j`, accumulator `y`. -/
def log2CeilLoop : List Nat → Nat → Nat → Nat → Nat
  | [], _, _, y => y
  | m :: ms, value, j, y =>
      let k := if value &&& m = 0 then 0 else j
      log2CeilLoop ms (value >>> k) (j >>> 1) (y + k)

/-- `log2Ceil` of `merkleTree.go`: integer ceiling logarithm (for inputs
representable as a nonnegative 64-bit integer). -/
def log2Ceil (value : Nat) : Nat :=
  let y := if value &&& (value - 1) = 0 then 0 else 1
  log2CeilLoop tab64 value 32 y

section Hash

/- The digest primitive `truncatedHash` of `merkleTree.go` computes an external
SHA-256 and clears the two top bits of the last byte; it is kept abstract here. -/
variable (truncatedHash : List Nat → Node)

/-- `computeNode` of `merkleTree.go`: hash of the 64-byte concatenation `left ‖ right`. -/
def computeNode (left right : Node) : Node :=
  truncatedHash (left.data ++ right.data)

/-- `hashList` of `merkleTree.go`. -/
def hashList (input : List (List Nat)) : List Node :=
  input.map (fun b => truncatedHash b)

/-- One parent level of `growTreeHashedLeafs` of `merkleTree.go`: adjacent pairs are
combined; a trailing lone child is hashed on its own (`truncatedHash` of its bytes). -/
def parentRow : List Node → List Node
  | [] => []
  | [x] => [truncatedHash x.data]
  | x :: y :: rest => computeNode truncatedHash x y :: parentRow rest

/-- `TreeData` of `merkleTree.go`: level-indexed storage, root row first. -/
structure TreeData where
  nodes : List (List Node)
deriving DecidableEq, Repr

/-- The level rows written by the loop of `growTreeHashedLeafs`: row `0` (root),
…, row `k` (the given row); every row of the bare tree is overwritten. -/
def buildLevels : Nat → List Node → List (List Node)
  | 0, row => [row]
  | k + 1, row => buildLevels k (parentRow truncatedHash row) ++ [row]

/-- `growTreeHashedLeafs` of `merkleTree.go`. -/
def growTreeHashedLeafs (leafs : List Node) : TreeData :=
  ⟨buildLevels truncatedHash (log2Ceil leafs.length) leafs⟩

/-- `GrowTree` of `merkleTree.go`: fails on empty input. -/
def growTree (leafData : List (List Nat)) : Option TreeData :=
  if leafData.isEmpty then none
  else some (growTreeHashedLeafs truncatedHash (hashList truncatedHash leafData))

end Hash

/-- `Depth` of `merkleTree.go`. -/
def TreeData.depth (d : TreeData) : Nat := d.nodes.length

/-- `Leafs` of `merkleTree.go`: the length of the last (leaf) row. -/
def TreeData.leafs (d : TreeData) : Nat :=
  (d.nodes.getD (d.nodes.length - 1) []).length

/-- `GetRoot` of `merkleTree.go`: the node at position `(0, 0)`. -/
def TreeData.getRoot (d : TreeData) : Node :=
  (d.nodes.getD 0 []).getD 0 zeroNode

/-- The row stored at level `lvl`. -/
def rowAt (d : TreeData) (lvl : Nat) : List Node := d.nodes.getD lvl []

/-- The number of nodes stored at level `lvl` (`len(d.nodes[lvl])`). -/
def widthAt (d : TreeData) (lvl : Nat) : Nat := (rowAt d lvl).length

/-- The node stored at level `lvl`, index `idx`. -/
def nodeAt (d : TreeData) (lvl idx : Nat) : Node := (rowAt d lvl).getD idx zeroNode

/-- `ProofData` of `merkleTree.go`. -/
structure ProofData where
  path : List Node
  lvl : Nat
  idx : Nat
deriving DecidableEq, Repr

/-- The loop of `ConstructProof` of `merkleTree.go`, walking from level `lvl` up to
level `1`: fails (`none`) when the walked index does not exist at some level; records
the sibling when it exists and otherwise leaves the preallocated zero node.  The
entry for level `l + 1` sits at vector index `l`. -/
def buildPath (d : TreeData) : Nat → Nat → Option (List Node)
  | 0, _ => some []
  | l + 1, i =>
      if (rowAt d (l + 1)).length ≤ i then none
      else
        let sib :=
          if getSiblingIdx i < (rowAt d (l + 1)).length
          then (rowAt d (l + 1)).getD (getSiblingIdx i) zeroNode
          else zeroNode
        match buildPath d l (i / 2) with
        | none => none
        | some rest => some (rest ++ [sib])

/-- `ConstructProof` of `merkleTree.go`; `none` models a returned `error`.
Inputs are Go `int`s, hence `Int`. -/
def constructProof (d : TreeData) (lvl idx : Int) : Option ProofData :=
  if lvl < 1 ∨ (d.depth : Int) ≤ lvl then none
  else if idx < 0 then none
  else
    match buildPath d lvl.toNat idx.toNat with
    | none => none
    | some p => some ⟨p, lvl.toNat, idx.toNat⟩

section Hash2

variable (truncatedHash : List Nat → Node)

/-- The loop of `ValidateSubtree` of `merkleTree.go`, folding from level `lvl` down
to level `1`.  `none` models the runtime panic of an out-of-range `path` access.
An all-zero sibling means "absent": the lone child is hashed on its own. -/
def replay : List Node → Nat → Nat → Node → Option Node
  | _, 0, _, cur => some cur
  | path, l + 1, i, cur =>
      match path[l]? with
      | none => none
      | some sibling =>
          let parent :=
            if sibling = zeroNode then truncatedHash cur.data
            else if getSiblingIdx i % 2 = 1 then computeNode truncatedHash cur sibling
            else computeNode truncatedHash sibling cur
          replay path l (i / 2) parent

/-- `ValidateSubtree` of `merkleTree.go`.  `none` models a runtime panic: either an
out-of-range `path` access, or — when `lvl` is `0` and the loop body never runs —
the dereference of the still-nil `parent` pointer in the final comparison. -/
def validateSubtree (d : ProofData) (subtree root : Node) : Option Bool :=
  if d.lvl = 0 then none
  else
    match replay truncatedHash d.path d.lvl d.idx subtree with
    | none => none
    | some parent => some (parent = root)

end Hash2

/-- `BatchedProofData` of `merkleTree.go`. -/
structure BatchedProofData where
  leftPath : List Node
  rightPath : List Node
  commonPath : List Node
  leftLvl : Nat
  leftIdx : Nat
  rightLvl : Nat
  rightIdx : Nat
deriving DecidableEq, Repr

/-- Result of `ConstructBatchedProof`: a value, a returned `error`, or a runtime
panic (out-of-range `path` access in the divergence scan). -/
inductive BatchedResult
  | ok (p : BatchedProofData)
  | err
  | panic
deriving DecidableEq, Repr

/-- The divergence scan of `ConstructBatchedProof` of `merkleTree.go`: starting at
`ctr` with `fuel` iterations left (so `ctr + fuel = maxLength`), return the first
index where the two paths differ, or `maxLength`; `none` models the runtime panic of
an out-of-range access on the shorter path. -/
def scanDiverge (l r : List Node) : Nat → Nat → Option Nat
  | ctr, 0 => some ctr
  | ctr, fuel + 1 =>
      match l[ctr]?, r[ctr]? with
      | some a, some b => if a ≠ b then some ctr else scanDiverge l r (ctr + 1) fuel
      | _, _ => none

/-- `ConstructBatchedProof` of `merkleTree.go`: builds the two single proofs, scans
off the shared top part of the two paths, and splits them into a common part and the
two divergent remainders. -/
def constructBatchedProof (d : TreeData) (leftLvl leftIdx rightLvl rightIdx : Int) :
    BatchedResult :=
  if leftLvl < 1 ∨ (d.depth : Int) ≤ leftLvl ∨ rightLvl < 1 ∨ (d.depth : Int) ≤ rightLvl then
    .err
  else if leftIdx < 0 ∨ rightIdx < 0 then .err
  else
    match constructProof d leftLvl leftIdx with
    | none => .err
    | some leftProof =>
      match constructProof d rightLvl rightIdx with
      | none => .err
      | some rightProof =>
        let maxLength := max leftProof.path.length rightProof.path.length
        match scanDiverge leftProof.path rightProof.path 0 maxLength with
        | none => .panic
        | some ctr =>
            .ok ⟨leftProof.path.drop ctr, rightProof.path.drop ctr,
                 rightProof.path.take ctr,
                 leftLvl.toNat, leftIdx.toNat, rightLvl.toNat, rightIdx.toNat⟩

/-- The masks of `tab64` as a recursive family: `s` masks for the halving binary
search starting at shift amount `j` (used to reason about `log2CeilLoop`). -/
def masksFrom : Nat → Nat → List Nat
  | _, 0 => []
  | j, s + 1 => (2 ^ (2 * j) - 2 ^ j) :: masksFrom (j / 2) s

/-- Modelled from the spec: the proof's `Depth()` accessor used by
`ComputeExpectedAuxData` is not among the sources; per §3 of the spec
("Path length equals `lvl`") the depth of a proof is the length of its path. -/
def ProofData.depth (d : ProofData) : Nat := d.path.length

/-- Modelled from the spec: the proof's `Index()` accessor used by
`ComputeExpectedAuxData` is not among the sources; it returns the target's
index `idx` within its level. -/
def ProofData.index (d : ProofData) : Nat := d.idx

end MerkleTree

namespace DataSegment

open MerkleTree

section Verifier

variable (truncatedHash : List Nat → Node)

/-- Modelled from the spec: `ComputeRoot` of the `merkletree` package is not among
the sources.  Per §4.F it replays the proof from the given subtree node exactly as
`validate_subtree` does and returns the derived root instead of comparing it, and it
fails on an internally inconsistent proof; per the comment in
`ComputeExpectedAuxData` ("inclusion proof verification checks that index is less
than the 1<<(path length)") the target index must be below `2^(path length)`. -/
def computeRoot (d : ProofData) (subtree : Node) : Option Node :=
  if 2 ^ d.path.length ≤ d.idx then none
  else replay truncatedHash d.path d.path.length d.idx subtree

end Verifier

/-- `InclusionProof` of `inclusion.go`. -/
structure InclusionProof where
  proofSubtree : ProofData
  proofIndex : ProofData
deriving DecidableEq, Repr

/-- `InclusionVerifierData` of `inclusion.go`; `sizePc` is a `uint64`
(`abi.PaddedPieceSize`) and the piece commitment is an opaque CID. -/
structure InclusionVerifierData (Cid : Type) where
  commPc : Cid
  sizePc : Nat
deriving DecidableEq, Repr

/-- `BytesInDataSegmentIndexEntry = 2 * BytesInNode` of `inclusion.go`. -/
def bytesInDataSegmentIndexEntry : Nat := 2 * digestBytes

/-- Modelled from the spec: `MakeDataSegmentIndexEntry` of the `datasegment`
package is not among the sources.  Per §4.E it fails with `InvalidAlignment` when
the offset or size is not aligned as required by the external Fr32 collaborator
(here the parameter `alignOk`), and otherwise yields the entry holding the
commitment, offset and size. -/
structure IndexEntry where
  commPc : Node
  offset : Nat
  size : Nat
deriving DecidableEq, Repr

section Entry

variable (alignOk : Nat → Nat → Bool) (packFr32 : Nat → Nat → List Nat)

/-- Modelled from the spec: see `IndexEntry`. -/
def makeDataSegmentIndexEntry (comm : Node) (offset size : Nat) : Option IndexEntry :=
  if alignOk offset size then some ⟨comm, offset, size⟩ else none

/-- Modelled from the spec: `SerializeFr32` of the `datasegment` package is not
among the sources.  Per §3 and §6 the serialized entry is the 64-byte payload
`commitment (32 B) ‖ packed (offset, size, checksum) (32 B)`, with the packing
supplied by the external Fr32 collaborator (here the parameter `packFr32`). -/
def serializeFr32 (e : IndexEntry) : List Nat :=
  e.commPc.data ++ packFr32 e.offset e.size

end Entry

/-- `(1 << depth) * size` as computed by `ComputeExpectedAuxData` of `inclusion.go`
in wrapping `uint64` arithmetic (a Go shift of a `uint64` by `≥ 64` yields `0`,
matching the `% 2^64` reduction). -/
def assumedSizePaOf (depth size : Nat) : Nat := ((1 <<< depth) * size) % 2 ^ 64

/-- `dataOffset := ip.ProofSubtree.Index() * uint64(veriferData.SizePc)` of
`inclusion.go`, in wrapping `uint64` arithmetic. -/
def dataOffsetOf (idx sizePc : Nat) : Nat := (idx * sizePc) % 2 ^ 64

/-- Result of `ComputeExpectedAuxData`: success (`InclusionAuxData`), one of the
returned errors, or a runtime panic. -/
inductive VerifyResult (Cid : Type)
  | ok (commPa : Cid) (sizePa : Nat)
  | errInvalidPieceCommitment
  | errSubtreeProofInvalid
  | errIndexEntry
  | errCommitmentMismatch
  | errSizeMismatch
  | errCidEncode
  | panic
deriving DecidableEq, Repr

/-- `ComputeExpectedAuxData` of `inclusion.go`, with the external collaborators as
parameters: the digest primitive, the Fr32 alignment predicate and packing, and the
CID codec.  The source binds the error of `ip.ProofIndex.ComputeRoot(enNode)` but
never checks it and immediately dereferences the returned commitment pointer, so a
failing index-proof replay is a runtime panic (`.panic`), not a returned error. -/
def computeExpectedAuxData {Cid : Type}
    (truncatedHash : List Nat → Node)
    (alignOk : Nat → Nat → Bool) (packFr32 : Nat → Nat → List Nat)
    (cidToPieceCommitmentV1 : Cid → Option (List Nat))
    (pieceCommitmentV1ToCid : List Nat → Option Cid)
    (ip : InclusionProof) (vd : InclusionVerifierData Cid) : VerifyResult Cid :=
  match cidToPieceCommitmentV1 vd.commPc with
  | none => .errInvalidPieceCommitment
  | some commPc =>
    let nodeCommPc : Node := ⟨commPc⟩
    match computeRoot truncatedHash ip.proofSubtree nodeCommPc with
    | none => .errSubtreeProofInvalid
    | some assumedCommPa =>
      let assumedSizePa := assumedSizePaOf ip.proofSubtree.depth vd.sizePc
      let dataOffset := dataOffsetOf ip.proofSubtree.index vd.sizePc
      match makeDataSegmentIndexEntry alignOk nodeCommPc dataOffset vd.sizePc with
      | none => .errIndexEntry
      | some en =>
        let enNode := truncatedHash (serializeFr32 packFr32 en)
        match computeRoot truncatedHash ip.proofIndex enNode with
        | none => .panic
        | some assumedCommPa2 =>
          if assumedCommPa2 ≠ assumedCommPa then .errCommitmentMismatch
          else
            let assumedSizePa2 := assumedSizePaOf ip.proofIndex.depth bytesInDataSegmentIndexEntry
            if assumedSizePa2 ≠ assumedSizePa then .errSizeMismatch
            else
              match pieceCommitmentV1ToCid assumedCommPa.data with
              | none => .errCidEncode
              | some cidPa => .ok cidPa assumedSizePa

end DataSegment

namespace Demo

open MerkleTree DataSegment

/-- A concrete executable digest used to instantiate the abstract `truncatedHash`
in witnesses; its first byte is never `0`, so it never returns `zeroNode`. -/
def demoHash : List Nat → Node :=
  fun bytes => ⟨((bytes.foldl (· + ·) 0 + bytes.length) % 255 + 1) :: List.replicate 31 0⟩

/-- The 32-byte node of all-one bytes. -/
def oneNode : Node := ⟨List.replicate 32 1⟩

/-- A constant digest instantiation (hash collisions are legal for the abstract
digest, and the wrap-around behaviours exhibited with it are digest-independent). -/
def constHash : List Nat → Node := fun _ => oneNode

/-- A concrete Fr32 alignment predicate: offsets and sizes must be multiples of
32 bytes (one Fr32 element). -/
def align32 (offset size : Nat) : Bool := offset % 32 == 0 && size % 32 == 0

/-- A concrete Fr32 packing instantiation. -/
def packZero : Nat → Nat → List Nat := fun _ _ => List.replicate 32 0

/-- A concrete CID decoder instantiation (`Cid := List Nat`, identity). -/
def cidId : List Nat → Option (List Nat) := fun b => some b

/-- A concrete CID encoder instantiation. -/
def pcId : List Nat → Option (List Nat) := fun b => some b

/-- Inclusion proof with subtree-proof depth 60 and index-proof depth 64: the
aggregator size `(1 << 60) * 2^16 = 2^76` overflows a `uint64`. -/
def ipOverflow : InclusionProof :=
  ⟨⟨List.replicate 60 zeroNode, 60, 0⟩, ⟨List.replicate 64 zeroNode, 64, 0⟩⟩

/-- Verifier data with `SizePc = 2^16` (the spec's scenario S6 sizes). -/
def vdOverflow : InclusionVerifierData (List Nat) := ⟨List.replicate 32 2, 2 ^ 16⟩

/-- Inclusion proof whose index proof has an empty path but index `1 ≥ 1 << 0`,
so the index-proof replay fails. -/
def ipPanic : InclusionProof := ⟨⟨[zeroNode], 1, 0⟩, ⟨[], 0, 1⟩⟩

/-- Verifier data with `SizePc = 32`. -/
def vdSimple : InclusionVerifierData (List Nat) := ⟨List.replicate 32 3, 32⟩

/-- The byte strings `"a" "b"`. -/
def leaves2 : List (List Nat) := [[97], [98]]

/-- The byte strings `"a" "b" "c"`. -/
def leaves3 : List (List Nat) := [[97], [98], [99]]

/-- The byte strings `"a" "b" "c" "d"`. -/
def leaves4 : List (List Nat) := [[97], [98], [99], [100]]

/-- The tree grown from `leaves2` with `demoHash`. -/
def tree2 : TreeData := growTreeHashedLeafs demoHash (hashList demoHash leaves2)

/-- The tree grown from `leaves4` with `demoHash`. -/
def tree4 : TreeData := growTreeHashedLeafs demoHash (hashList demoHash leaves4)

end Demo

namespace MerkleTree

theorem halfCeil_eq (x : Nat) : halfCeil x = (x + 1) / 2 := by
  unfold halfCeil
  split <;> omega

theorem parentRow_length (H : List Nat → Node) :
    ∀ l : List Node, (parentRow H l).length = halfCeil l.length
  | [] => by simp [parentRow, halfCeil]
  | [x] => by simp [parentRow, halfCeil]
  | x :: y :: rest => by
      have ih := parentRow_length H rest
      rw [halfCeil_eq] at ih ⊢
      simp only [parentRow, List.length_cons]
      omega

theorem parentRow_getD (H : List Nat → Node) :
    ∀ (l : List Node) (j : Nat), 2 * j < l.length →
      (parentRow H l).getD j zeroNode =
        if 2 * j + 1 < l.length
        then computeNode H (l.getD (2 * j) zeroNode) (l.getD (2 * j + 1) zeroNode)
        else H ((l.getD (2 * j) zeroNode).data)
  | [], j, h => by simp at h
  | [x], j, h => by
      have hj : j = 0 := by simp only [List.length_singleton] at h; omega
      subst hj
      simp [parentRow]
  | x :: y :: rest, j, h => by
      match j with
      | 0 => simp [parentRow]
      | j' + 1 =>
          have hlt : 2 * j' < rest.length := by
            simp only [List.length_cons] at h
            omega
          have ih := parentRow_getD H rest j' hlt
          have e1 : 2 * (j' + 1) = 2 * j' + 1 + 1 := by omega
          rw [e1]
          simp only [parentRow, List.getD_cons_succ, List.length_cons]
          rw [ih]
          by_cases hc : 2 * j' + 1 < rest.length
          · rw [if_pos hc, if_pos (by omega)]
          · rw [if_neg hc, if_neg (by omega)]

theorem buildLevels_length (H : List Nat → Node) :
    ∀ (k : Nat) (row : List Node), (buildLevels H k row).length = k + 1
  | 0, _ => rfl
  | k + 1, row => by simp [buildLevels, buildLevels_length H k]

theorem buildLevels_getD (H : List Nat → Node) :
    ∀ (k i : Nat) (row : List Node), i ≤ k →
      (buildLevels H k row).getD i [] = (parentRow H)^[k - i] row
  | 0, i, row, h => by
      have hi : i = 0 := by omega
      subst hi
      rfl
  | k + 1, i, row, h => by
      rcases Nat.lt_or_ge i (k + 1) with hi | hi
      · have ih := buildLevels_getD H k i (parentRow H row) (by omega)
        rw [buildLevels, List.getD_append _ _ _ _ (by rw [buildLevels_length]; omega), ih]
        have e1 : k + 1 - i = (k - i) + 1 := by omega
        rw [e1, Function.iterate_succ_apply]
      · have hi' : i = k + 1 := by omega
        subst hi'
        rw [buildLevels, List.getD_append_right _ _ _ _ (by simp [buildLevels_length])]
        rw [buildLevels_length]
        simp

theorem iterate_parentRow_length (H : List Nat → Node) (l : List Node) (h : 1 ≤ l.length) :
    ∀ m : Nat, ((parentRow H)^[m] l).length = (l.length - 1) / 2 ^ m + 1
  | 0 => by simp; omega
  | m + 1 => by
      have ih := iterate_parentRow_length H l h m
      rw [Function.iterate_succ_apply', parentRow_length, halfCeil_eq, ih]
      rw [pow_succ, ← Nat.div_div_eq_div_mul]
      omega

theorem and_shiftLeft_eq (v m j : Nat) :
    v &&& (m <<< j) = ((v >>> j) &&& m) <<< j := by
  apply Nat.eq_of_testBit_eq
  intro i
  simp only [Nat.testBit_land, Nat.testBit_shiftLeft, Nat.testBit_shiftRight]
  by_cases h : j ≤ i
  · simp [h, Nat.add_sub_cancel' h, Bool.and_assoc, Bool.and_comm, Bool.and_left_comm]
  · simp [h]

theorem and_mask_eq_zero_iff {v j : Nat} (hv : v < 2 ^ (2 * j)) :
    (v &&& (2 ^ (2 * j) - 2 ^ j) = 0) ↔ v < 2 ^ j := by
  have hmask : 2 ^ (2 * j) - 2 ^ j = (2 ^ j - 1) <<< j := by
    rw [Nat.shiftLeft_eq, Nat.sub_mul, one_mul, ← pow_add]
    congr 2
    omega
  have hdiv : v / 2 ^ j < 2 ^ j := by
    apply Nat.div_lt_of_lt_mul
    rw [← pow_add]
    have e1 : j + j = 2 * j := by omega
    rw [e1]
    exact hv
  rw [hmask, and_shiftLeft_eq, Nat.and_pow_two_sub_one_eq_mod, Nat.shiftRight_eq_div_pow,
    Nat.mod_eq_of_lt hdiv, Nat.shiftLeft_eq]
  constructor
  · intro h0
    have hz : v / 2 ^ j = 0 := by
      rcases Nat.mul_eq_zero.mp h0 with h | h
      · exact h
      · exact absurd h (by positivity)
    exact (Nat.div_eq_zero_iff (by positivity)).mp hz
  · intro hlt
    rw [Nat.div_eq_of_lt hlt, zero_mul]

theorem log_shiftRight (v : Nat) :
    ∀ j : Nat, 2 ^ j ≤ v → Nat.log 2 (v >>> j) = Nat.log 2 v - j
  | 0, _ => by simp
  | j + 1, h => by
      have hj : 2 ^ j ≤ v := le_trans (Nat.pow_le_pow_right (by omega) (by omega)) h
      have ih := log_shiftRight v j hj
      rw [Nat.shiftRight_succ, Nat.log_div_base 2 (v >>> j), ih]
      omega

theorem log2CeilLoop_spec :
    ∀ (s v y : Nat), 1 ≤ v → v < 2 ^ (2 * 2 ^ s) →
      log2CeilLoop (masksFrom (2 ^ s) (s + 1)) v (2 ^ s) y = y + Nat.log 2 v
  | 0, v, y, h1, h2 => by
      simp only [pow_zero, Nat.mul_one] at h2
      by_cases hm : v &&& (2 ^ (2 * 1) - 2 ^ 1) = 0
      · have hv1 : v < 2 ^ 1 := (and_mask_eq_zero_iff (by norm_num at h2 ⊢; omega)).mp hm
        have hv : v = 1 := by norm_num at hv1; omega
        subst hv
        simp [masksFrom, log2CeilLoop]
      · have hv2 : 2 ^ 1 ≤ v := by
          by_contra hc
          exact hm ((and_mask_eq_zero_iff (by norm_num at h2 ⊢; omega)).mpr (by omega))
        have hlog : Nat.log 2 v = 1 := by
          apply Nat.log_eq_of_pow_le_of_lt_pow (by norm_num at hv2 ⊢; omega)
          norm_num at h2 ⊢
          omega
        simp only [masksFrom, log2CeilLoop]
        rw [if_neg (by simpa using hm)]
        simp [hlog]
  | s + 1, v, y, h1, h2 => by
      have hj : (2 : Nat) ^ (s + 1) = 2 * 2 ^ s := by ring
      have hmask2 : v < 2 ^ (2 * 2 ^ (s + 1)) := h2
      by_cases hm : v &&& (2 ^ (2 * 2 ^ (s + 1)) - 2 ^ (2 ^ (s + 1))) = 0
      · have hv1 : v < 2 ^ (2 ^ (s + 1)) := (and_mask_eq_zero_iff hmask2).mp hm
        have hrec := log2CeilLoop_spec s v y h1 (by rw [← hj]; exact hv1)
        have hhalf : 2 ^ (s + 1) / 2 = 2 ^ s := by
          rw [pow_succ]
          omega
        have hshift : (2 : Nat) ^ (s + 1) >>> 1 = 2 ^ s := by
          rw [Nat.shiftRight_succ, Nat.shiftRight_zero]
          exact hhalf
        rw [masksFrom, hhalf]
        rw [log2CeilLoop]
        simp only [if_pos hm, Nat.shiftRight_zero, Nat.add_zero]
        rw [hshift]
        exact hrec
      · have hv2 : 2 ^ (2 ^ (s + 1)) ≤ v := by
          by_contra hc
          exact hm ((and_mask_eq_zero_iff hmask2).mpr (by omega))
        have hpos : 0 < 2 ^ (2 ^ (s + 1)) := by positivity
        have h1' : 1 ≤ v >>> 2 ^ (s + 1) := by
          rw [Nat.shiftRight_eq_div_pow]
          exact (Nat.one_le_div_iff hpos).mpr hv2
        have h2' : v >>> 2 ^ (s + 1) < 2 ^ (2 * 2 ^ s) := by
          rw [Nat.shiftRight_eq_div_pow, ← hj]
          apply Nat.div_lt_of_lt_mul
          rw [← pow_add]
          have e1 : 2 ^ (s + 1) + 2 ^ (s + 1) = 2 * 2 ^ (s + 1) := by omega
          rw [e1]
          exact hmask2
        have hrec := log2CeilLoop_spec s (v >>> 2 ^ (s + 1)) (y + 2 ^ (s + 1)) h1' h2'
        have hhalf : 2 ^ (s + 1) / 2 = 2 ^ s := by
          rw [pow_succ]
          omega
        have hshift : (2 : Nat) ^ (s + 1) >>> 1 = 2 ^ s := by
          rw [Nat.shiftRight_succ, Nat.shiftRight_zero]
          exact hhalf
        rw [masksFrom, hhalf]
        rw [log2CeilLoop]
        simp only [if_neg hm]
        rw [hshift, hrec, log_shiftRight v (2 ^ (s + 1)) hv2]
        have hle : 2 ^ (s + 1) ≤ Nat.log 2 v :=
          (Nat.pow_le_iff_le_log (by norm_num) (by omega)).mp hv2
        omega

theorem pow2_and_pred {n : Nat} (h : 1 ≤ n) :
    (n &&& (n - 1) = 0) ↔ ∃ k, n = 2 ^ k := by
  constructor
  · intro h0
    by_contra hc
    push_neg at hc
    obtain ⟨k, hk⟩ : ∃ k, k = Nat.log 2 n := ⟨Nat.log 2 n, rfl⟩
    have hk1 : 2 ^ k ≤ n := hk ▸ Nat.pow_log_le_self 2 (by omega)
    have hk2 : n < 2 ^ (k + 1) := hk ▸ Nat.lt_pow_succ_log_self (by norm_num) n
    have hne : n ≠ 2 ^ k := hc k
    have hsplit : 2 ^ (k + 1) = 2 ^ k + 2 ^ k := by
      rw [pow_succ]
      omega
    have hm : n - 2 ^ k < 2 ^ k := by omega
    have hbn : n.testBit k = true := by
      have hrepr : n = 2 ^ k + (n - 2 ^ k) := by omega
      rw [hrepr, Nat.testBit_two_pow_add_eq, Nat.testBit_lt_two_pow hm]
      rfl
    have hbn1 : (n - 1).testBit k = true := by
      have hge : 1 ≤ n - 2 ^ k := by omega
      have hrepr : n - 1 = 2 ^ k + (n - 2 ^ k - 1) := by omega
      rw [hrepr, Nat.testBit_two_pow_add_eq,
        Nat.testBit_lt_two_pow (show n - 2 ^ k - 1 < 2 ^ k by omega)]
      rfl
    have hbit : (n &&& (n - 1)).testBit k = true := by
      rw [Nat.testBit_land, hbn, hbn1]
      rfl
    rw [h0] at hbit
    simp at hbit
  · rintro ⟨k, rfl⟩
    simp [Nat.and_pow_two_sub_one_eq_mod]

theorem log2Ceil_eq_clog {n : Nat} (h1 : 1 ≤ n) (h2 : n < 2 ^ 64) :
    log2Ceil n = Nat.clog 2 n := by
  have htab : tab64 = masksFrom (2 ^ 5) 6 := by decide
  unfold log2Ceil
  rw [htab]
  have h2' : n < 2 ^ (2 * 2 ^ 5) := by norm_num at h2 ⊢; omega
  rw [show (32 : Nat) = 2 ^ 5 by norm_num, log2CeilLoop_spec 5 n _ h1 h2']
  by_cases hp : n &&& (n - 1) = 0
  · obtain ⟨k, rfl⟩ := (pow2_and_pred h1).mp hp
    simp [hp, Nat.log_pow, Nat.clog_pow]
  · have hn2 : 2 ≤ n := by
      rcases Nat.lt_or_ge n 2 with hlt | hge
      · have hn1 : n = 1 := by omega
        exact absurd ((pow2_and_pred h1).mpr ⟨0, by omega⟩) hp
      · exact hge
    have hk1 : 2 ^ Nat.log 2 n ≤ n := Nat.pow_log_le_self 2 (by omega)
    have hk2 : n < 2 ^ (Nat.log 2 n + 1) := Nat.lt_pow_succ_log_self (by norm_num) n
    have hne : n ≠ 2 ^ Nat.log 2 n := by
      intro he
      exact hp ((pow2_and_pred h1).mpr ⟨Nat.log 2 n, he⟩)
    have c1 : Nat.log 2 n < Nat.clog 2 n :=
      (Nat.pow_lt_iff_lt_clog (by norm_num)).mp (by omega)
    have c2 : Nat.clog 2 n ≤ Nat.log 2 n + 1 :=
      (Nat.le_pow_iff_clog_le (by norm_num)).mp (by omega)
    rw [if_neg hp]
    omega

theorem grow_rowAt (H : List Nat → Node) (leafs : List Node) (ℓ : Nat)
    (h : ℓ ≤ log2Ceil leafs.length) :
    rowAt (growTreeHashedLeafs H leafs) ℓ =
      (parentRow H)^[log2Ceil leafs.length - ℓ] leafs := by
  unfold rowAt growTreeHashedLeafs
  exact buildLevels_getD H _ ℓ leafs h

theorem grow_depth (H : List Nat → Node) (leafs : List Node) :
    (growTreeHashedLeafs H leafs).depth = log2Ceil leafs.length + 1 := by
  unfold TreeData.depth growTreeHashedLeafs
  exact buildLevels_length H _ leafs

theorem grow_hinv (H : List Nat → Node) (leafs : List Node) (ℓ : Nat)
    (h : ℓ + 1 < (growTreeHashedLeafs H leafs).depth) :
    rowAt (growTreeHashedLeafs H leafs) ℓ =
      parentRow H (rowAt (growTreeHashedLeafs H leafs) (ℓ + 1)) := by
  rw [grow_depth] at h
  rw [grow_rowAt H leafs ℓ (by omega), grow_rowAt H leafs (ℓ + 1) (by omega)]
  have e1 : log2Ceil leafs.length - ℓ = (log2Ceil leafs.length - (ℓ + 1)) + 1 := by omega
  rw [e1, Function.iterate_succ_apply']

theorem grow_widthAt (H : List Nat → Node) (leafs : List Node) (hne : 1 ≤ leafs.length)
    (ℓ : Nat) (h : ℓ ≤ log2Ceil leafs.length) :
    widthAt (growTreeHashedLeafs H leafs) ℓ =
      (leafs.length - 1) / 2 ^ (log2Ceil leafs.length - ℓ) + 1 := by
  unfold widthAt
  rw [grow_rowAt H leafs ℓ h, iterate_parentRow_length H leafs hne]

theorem grow_hhalf (H : List Nat → Node) (leafs : List Node) (ℓ : Nat)
    (h : ℓ + 1 < (growTreeHashedLeafs H leafs).depth) :
    widthAt (growTreeHashedLeafs H leafs) ℓ =
      halfCeil (widthAt (growTreeHashedLeafs H leafs) (ℓ + 1)) := by
  unfold widthAt
  rw [grow_hinv H leafs ℓ h, parentRow_length]

theorem getD_mem_of_lt {l : List Node} {i : Nat} (h : i < l.length) (d : Node) :
    l.getD i d ∈ l := by
  rw [List.getD_eq_getElem l d h]
  exact List.getElem_mem h

theorem fold_step (H : List Nat → Node) (row : List Node) (idx : Nat) (sib : Node)
    (hsib : sib = if getSiblingIdx idx < row.length
                  then row.getD (getSiblingIdx idx) zeroNode else zeroNode)
    (hidx : idx < row.length) (hnz : zeroNode ∉ row) :
    (if sib = zeroNode then H ((row.getD idx zeroNode).data)
     else if getSiblingIdx idx % 2 = 1 then computeNode H (row.getD idx zeroNode) sib
     else computeNode H sib (row.getD idx zeroNode))
    = (parentRow H row).getD (idx / 2) zeroNode := by
  rcases Nat.even_or_odd idx with he | ho
  · have hpar : idx % 2 = 0 := Nat.even_iff.mp he
    have hs : getSiblingIdx idx = idx + 1 := by unfold getSiblingIdx; rw [if_pos hpar]
    have h2 : 2 * (idx / 2) = idx := by omega
    by_cases hin : idx + 1 < row.length
    · have hsib' : sib = row.getD (idx + 1) zeroNode := by rw [hsib, hs, if_pos hin]
      have hmem : sib ∈ row := hsib' ▸ getD_mem_of_lt hin zeroNode
      have hzero : ¬sib = zeroNode := fun hz => hnz (hz ▸ hmem)
      rw [if_neg hzero, hs]
      have hodd : (idx + 1) % 2 = 1 := by omega
      rw [if_pos hodd, parentRow_getD H row (idx / 2) (by omega)]
      rw [if_pos (by omega : 2 * (idx / 2) + 1 < row.length)]
      rw [h2, hsib']
    · have hsib' : sib = zeroNode := by rw [hsib, hs, if_neg hin]
      rw [if_pos hsib', parentRow_getD H row (idx / 2) (by omega)]
      rw [if_neg (by omega : ¬2 * (idx / 2) + 1 < row.length), h2]
  · have hpar : idx % 2 = 1 := Nat.odd_iff.mp ho
    have hs : getSiblingIdx idx = idx - 1 := by
      unfold getSiblingIdx
      rw [if_neg (by omega)]
    have h1 : 1 ≤ idx := by omega
    have h2 : 2 * (idx / 2) = idx - 1 := by omega
    have hin : idx - 1 < row.length := by omega
    have hsib' : sib = row.getD (idx - 1) zeroNode := by
      rw [hsib, hs, if_pos (by omega)]
    have hmem : sib ∈ row := hsib' ▸ getD_mem_of_lt hin zeroNode
    have hzero : ¬sib = zeroNode := fun hz => hnz (hz ▸ hmem)
    rw [if_neg hzero, hs]
    have heven : (idx - 1) % 2 = 0 := by omega
    rw [if_neg (by omega : ¬(idx - 1) % 2 = 1)]
    rw [parentRow_getD H row (idx / 2) (by omega)]
    rw [if_pos (by omega : 2 * (idx / 2) + 1 < row.length)]
    rw [h2]
    have h4 : idx - 1 + 1 = idx := by omega
    rw [h4, hsib']

theorem replay_append (H : List Nat → Node) :
    ∀ (p q : List Node) (lvl i : Nat) (c : Node), lvl ≤ p.length →
      replay H (p ++ q) lvl i c = replay H p lvl i c
  | _, _, 0, _, _, _ => rfl
  | p, q, l + 1, i, c, h => by
      have hget : (p ++ q)[l]? = p[l]? := List.getElem?_append_left (by omega)
      simp only [replay, hget]
      cases hp : p[l]? with
      | none => rfl
      | some s => exact replay_append H p q l (i / 2) _ (by omega)

theorem shiftRight_div_two (i k : Nat) : (i / 2) >>> k = i >>> (k + 1) := by
  rw [Nat.shiftRight_eq_div_pow, Nat.shiftRight_eq_div_pow, Nat.div_div_eq_div_mul]
  congr 1
  ring

theorem buildPath_spec (d : TreeData)
    (hhalf : ∀ ℓ : Nat, ℓ + 1 < d.depth → widthAt d ℓ = halfCeil (widthAt d (ℓ + 1))) :
    ∀ lvl idx : Nat, 1 ≤ lvl → lvl < d.depth → idx < widthAt d lvl →
      ∃ p, buildPath d lvl idx = some p ∧ p.length = lvl ∧
        ∀ ℓ : Nat, 1 ≤ ℓ → ℓ ≤ lvl →
          p[ℓ - 1]? = some (if getSiblingIdx (idx >>> (lvl - ℓ)) < widthAt d ℓ
                            then nodeAt d ℓ (getSiblingIdx (idx >>> (lvl - ℓ)))
                            else zeroNode)
  | 0, idx, h1, h2, h3 => by omega
  | 1, idx, h1, h2, h3 => by
      refine ⟨[if getSiblingIdx idx < (rowAt d 1).length
               then (rowAt d 1).getD (getSiblingIdx idx) zeroNode else zeroNode], ?_, rfl, ?_⟩
      · simp only [buildPath]
        rw [if_neg (by exact Nat.not_le.mpr h3)]
        simp
      · intro ℓ hℓ1 hℓ2
        have hℓ : ℓ = 1 := by omega
        subst hℓ
        simp [widthAt, nodeAt, Nat.shiftRight_zero]
  | lvl + 2, idx, h1, h2, h3 => by
      have hw : widthAt d (lvl + 1) = halfCeil (widthAt d (lvl + 2)) := hhalf (lvl + 1) h2
      have hidx2 : idx / 2 < widthAt d (lvl + 1) := by
        rw [hw, halfCeil_eq]
        omega
      obtain ⟨rest, hbp, hlen, hent⟩ :=
        buildPath_spec d hhalf (lvl + 1) (idx / 2) (by omega) (by omega) hidx2
      refine ⟨rest ++ [if getSiblingIdx idx < (rowAt d (lvl + 2)).length
                       then (rowAt d (lvl + 2)).getD (getSiblingIdx idx) zeroNode
                       else zeroNode], ?_, ?_, ?_⟩
      · rw [buildPath]
        rw [if_neg (by exact Nat.not_le.mpr h3), hbp]
      · simp [hlen]
      · intro ℓ hℓ1 hℓ2
        rcases Nat.lt_or_ge ℓ (lvl + 2) with hc | hc
        · have hl : ℓ - 1 < rest.length := by omega
          rw [List.getElem?_append_left hl, hent ℓ hℓ1 (by omega)]
          have e1 : (idx / 2) >>> (lvl + 1 - ℓ) = idx >>> (lvl + 2 - ℓ) := by
            rw [shiftRight_div_two]
            congr 1
            omega
          rw [e1]
        · have hℓ : ℓ = lvl + 2 := by omega
          subst hℓ
          rw [List.getElem?_append_right (by omega), hlen]
          have e0 : lvl + 2 - 1 - (lvl + 1) = 0 := by omega
          rw [e0]
          simp [widthAt, nodeAt, Nat.shiftRight_zero]

theorem replay_of_path (H : List Nat → Node) (d : TreeData)
    (hinv : ∀ ℓ : Nat, ℓ + 1 < d.depth → rowAt d ℓ = parentRow H (rowAt d (ℓ + 1)))
    (hnz : ∀ ℓ : Nat, 1 ≤ ℓ → ℓ < d.depth → zeroNode ∉ rowAt d ℓ) :
    ∀ (lvl idx : Nat) (p : List Node), 1 ≤ lvl → lvl < d.depth → idx < widthAt d lvl →
      lvl ≤ p.length →
      (∀ ℓ : Nat, 1 ≤ ℓ → ℓ ≤ lvl →
        p[ℓ - 1]? = some (if getSiblingIdx (idx >>> (lvl - ℓ)) < widthAt d ℓ
                          then nodeAt d ℓ (getSiblingIdx (idx >>> (lvl - ℓ)))
                          else zeroNode)) →
      replay H p lvl idx (nodeAt d lvl idx) = some (nodeAt d 0 (idx / 2 ^ lvl))
  | 0, idx, p, h1, h2, h3, h4, h5 => by omega
  | lvl + 1, idx, p, h1, h2, h3, h4, h5 => by
      have htop := h5 (lvl + 1) (by omega) (by omega)
      have e0 : lvl + 1 - (lvl + 1) = 0 := by omega
      rw [e0, Nat.shiftRight_zero] at htop
      have htop' : p[lvl + 1 - 1]? =
          some (if getSiblingIdx idx < widthAt d (lvl + 1)
                then nodeAt d (lvl + 1) (getSiblingIdx idx) else zeroNode) := htop
      have e1 : lvl + 1 - 1 = lvl := by omega
      rw [e1] at htop'
      have hstep := fold_step H (rowAt d (lvl + 1)) idx
        (if getSiblingIdx idx < widthAt d (lvl + 1)
         then nodeAt d (lvl + 1) (getSiblingIdx idx) else zeroNode)
        (by unfold widthAt nodeAt; split <;> rfl) h3 (hnz (lvl + 1) (by omega) h2)
      rw [← hinv lvl h2] at hstep
      simp only [replay, htop']
      have hcur : nodeAt d (lvl + 1) idx = (rowAt d (lvl + 1)).getD idx zeroNode := rfl
      rw [hcur, hstep]
      rcases Nat.eq_zero_or_pos lvl with hz | hpos
      · subst hz
        simp [replay, nodeAt, pow_one]
      · have hwidth : widthAt d lvl = halfCeil (widthAt d (lvl + 1)) := by
          unfold widthAt
          rw [hinv lvl h2, parentRow_length]
        have hidx2 : idx / 2 < widthAt d lvl := by
          rw [hwidth, halfCeil_eq]
          omega
        have hrec := replay_of_path H d hinv hnz lvl (idx / 2) p hpos (by omega) hidx2
          (by omega) ?ent
        case ent =>
          intro ℓ hℓ1 hℓ2
          have := h5 ℓ hℓ1 (by omega)
          have e2 : (idx / 2) >>> (lvl - ℓ) = idx >>> (lvl + 1 - ℓ) := by
            rw [shiftRight_div_two]
            congr 1
            omega
          rw [e2]
          exact this
        rw [show nodeAt d lvl (idx / 2) = (rowAt d lvl).getD (idx / 2) zeroNode from rfl]
          at hrec
        rw [hrec]
        have e3 : idx / 2 / 2 ^ lvl = idx / 2 ^ (lvl + 1) := by
          rw [Nat.div_div_eq_div_mul]
          congr 1
          ring
        rw [e3]

theorem buildPath_none_of_ge (d : TreeData) (lvl idx : Nat) (h1 : 1 ≤ lvl)
    (h : widthAt d lvl ≤ idx) : buildPath d lvl idx = none := by
  match lvl, h1 with
  | l + 1, _ =>
    rw [buildPath]
    rw [if_pos (show (rowAt d (l + 1)).length ≤ idx from h)]

theorem replay_isSome (H : List Nat → Node) :
    ∀ (p : List Node) (lvl i : Nat) (c : Node), lvl ≤ p.length →
      ∃ r, replay H p lvl i c = some r
  | _, 0, _, c, _ => ⟨c, rfl⟩
  | p, l + 1, i, c, h => by
      have hlt : l < p.length := by omega
      simp only [replay]
      rw [List.getElem?_eq_getElem hlt]
      exact replay_isSome H p l (i / 2) _ (by omega)

theorem le_two_pow_log2Ceil {n : Nat} (h1 : 1 ≤ n) (h2 : n < 2 ^ 64) :
    n ≤ 2 ^ log2Ceil n := by
  rw [log2Ceil_eq_clog h1 h2]
  exact Nat.le_pow_clog (by norm_num) n

theorem hashList_length (H : List Nat → Node) (l : List (List Nat)) :
    (hashList H l).length = l.length := List.length_map l _

theorem growTree_eq (H : List Nat → Node) (leafData : List (List Nat)) (tree : TreeData)
    (hgrow : growTree H leafData = some tree) :
    tree = growTreeHashedLeafs H (hashList H leafData) ∧ leafData ≠ [] := by
  unfold growTree at hgrow
  split at hgrow
  · exact absurd hgrow (by simp)
  · refine ⟨by injection hgrow with h; exact h.symm, ?_⟩
    intro he
    subst he
    simp_all

theorem rowAt_mem {d : TreeData} {ℓ : Nat} (h : ℓ < d.depth) : rowAt d ℓ ∈ d.nodes := by
  unfold rowAt
  rw [List.getD_eq_getElem _ _ h]
  exact List.getElem_mem h

/-- C1: for every tree grown from a non-empty sequence of leaf byte-strings and every
position `(lvl, idx)` with `1 ≤ lvl ≤ Depth-1` and `idx < width(lvl)`, validating the
node stored at `(lvl, idx)` against the tree's root using the proof returned by
`ConstructProof(lvl, idx)` returns `true`.  The digest is abstract; per §3 of the
spec every stored node is assumed to be a digest distinct from the reserved all-zero
sentinel (hypothesis `hnz`), and the leaf count is bounded by the positive range of
the Go `int` (hypothesis `hbound`). -/
theorem c1_round_trip (H : List Nat → Node) (leafData : List (List Nat)) (tree : TreeData)
    (hgrow : growTree H leafData = some tree)
    (hbound : leafData.length < 2 ^ 63)
    (hnz : ∀ row ∈ tree.nodes, zeroNode ∉ row)
    (lvl idx : Nat) (hlvl1 : 1 ≤ lvl) (hlvl2 : lvl ≤ tree.depth - 1)
    (hidx : idx < widthAt tree lvl) :
    ∃ pf, constructProof tree (lvl : Int) (idx : Int) = some pf ∧
      validateSubtree H pf (nodeAt tree lvl idx) tree.getRoot = some true := by
  obtain ⟨htree, hne⟩ := growTree_eq H leafData tree hgrow
  have hn1 : 1 ≤ (hashList H leafData).length := by
    rw [hashList_length]
    cases leafData with
    | nil => exact absurd rfl hne
    | cons a l => simp
  have hdep : tree.depth = log2Ceil (hashList H leafData).length + 1 := by
    rw [htree, grow_depth]
  have hlvld : lvl < tree.depth := by omega
  have hinv : ∀ ℓ : Nat, ℓ + 1 < tree.depth → rowAt tree ℓ = parentRow H (rowAt tree (ℓ + 1)) := by
    intro ℓ hℓ
    rw [htree] at hℓ ⊢
    exact grow_hinv H _ ℓ hℓ
  have hhalf : ∀ ℓ : Nat, ℓ + 1 < tree.depth → widthAt tree ℓ = halfCeil (widthAt tree (ℓ + 1)) := by
    intro ℓ hℓ
    unfold widthAt
    rw [hinv ℓ hℓ, parentRow_length]
  have hnz' : ∀ ℓ : Nat, 1 ≤ ℓ → ℓ < tree.depth → zeroNode ∉ rowAt tree ℓ := by
    intro ℓ _ hℓ
    exact hnz (rowAt tree ℓ) (rowAt_mem hℓ)
  obtain ⟨p, hbp, hlen, hent⟩ := buildPath_spec tree hhalf lvl idx hlvl1 hlvld hidx
  have hrep := replay_of_path H tree hinv hnz' lvl idx p hlvl1 hlvld hidx (by omega) hent
  have hzero : idx / 2 ^ lvl = 0 := by
    apply Nat.div_eq_of_lt
    have hwidth : widthAt tree lvl =
        ((hashList H leafData).length - 1) / 2 ^ (log2Ceil (hashList H leafData).length - lvl) + 1 := by
      rw [htree]
      exact grow_widthAt H _ hn1 lvl (by omega)
    have hle : (hashList H leafData).length ≤ 2 ^ log2Ceil (hashList H leafData).length :=
      le_two_pow_log2Ceil hn1 (by rw [hashList_length]; omega)
    have hsplit : (2 : Nat) ^ log2Ceil (hashList H leafData).length =
        2 ^ (log2Ceil (hashList H leafData).length - lvl) * 2 ^ lvl := by
      rw [← pow_add]
      congr 1
      omega
    have hdivlt : ((hashList H leafData).length - 1) /
        2 ^ (log2Ceil (hashList H leafData).length - lvl) < 2 ^ lvl := by
      apply Nat.div_lt_of_lt_mul
      rw [← hsplit]
      omega
    rw [hwidth] at hidx
    exact lt_of_le_of_lt (Nat.lt_succ_iff.mp hidx) hdivlt
  rw [hzero] at hrep
  have hroot : nodeAt tree 0 0 = tree.getRoot := rfl
  rw [hroot] at hrep
  refine ⟨⟨p, lvl, idx⟩, ?_, ?_⟩
  · rw [constructProof]
    rw [if_neg (by push_neg; constructor <;> [exact_mod_cast hlvl1; exact_mod_cast hlvld])]
    rw [if_neg (by omega)]
    simp only [Int.toNat_natCast]
    rw [hbp]
  · simp only [validateSubtree]
    rw [if_neg (show ¬lvl = 0 by omega), hrep]
    simp

/-- Witness for C1: the two-leaf tree `Demo.tree2` grown with the concrete digest
`Demo.demoHash`, position `(1, 0)`. -/
theorem c1_round_trip_witness :
    ∃ pf, constructProof Demo.tree2 ((1 : Nat) : Int) ((0 : Nat) : Int) = some pf ∧
      validateSubtree Demo.demoHash pf (nodeAt Demo.tree2 1 0) Demo.tree2.getRoot = some true :=
  c1_round_trip Demo.demoHash Demo.leaves2 Demo.tree2 (by decide) (by decide)
    (by decide) 1 0 (by decide) (by decide) (by decide)

/-- C5: in every tree built by `GrowTree`/`growTreeHashedLeafs`, whenever a child row
has odd length the last parent in the row above is `truncatedHash` of the lone
child's bytes (single-child fold, not duplicate-last); and the `ValidateSubtree`
loop folds the same way, computing `parent = truncatedHash(currentNode)` exactly
when the recorded sibling is the all-zero node, and otherwise combining the two
nodes in sibling-position order. -/
theorem c5_single_child_fold (H : List Nat → Node) :
    (∀ (leafs : List Node) (ℓ : Nat),
      ℓ + 1 < (growTreeHashedLeafs H leafs).depth →
      widthAt (growTreeHashedLeafs H leafs) (ℓ + 1) % 2 = 1 →
      nodeAt (growTreeHashedLeafs H leafs) ℓ (widthAt (growTreeHashedLeafs H leafs) ℓ - 1) =
        H ((nodeAt (growTreeHashedLeafs H leafs) (ℓ + 1)
             (widthAt (growTreeHashedLeafs H leafs) (ℓ + 1) - 1)).data))
    ∧ (∀ (path : List Node) (l i : Nat) (cur s : Node), path[l]? = some s →
        replay H path (l + 1) i cur =
          replay H path l (i / 2)
            (if s = zeroNode then H cur.data
             else if getSiblingIdx i % 2 = 1 then computeNode H cur s
             else computeNode H s cur)) := by
  constructor
  · intro leafs ℓ hℓ hodd
    have hinv := grow_hinv H leafs ℓ hℓ
    have hw1 : 1 ≤ widthAt (growTreeHashedLeafs H leafs) (ℓ + 1) := by omega
    have hwid : widthAt (growTreeHashedLeafs H leafs) ℓ =
        halfCeil (widthAt (growTreeHashedLeafs H leafs) (ℓ + 1)) := by
      unfold widthAt
      rw [hinv, parentRow_length]
    have hrowlen : (rowAt (growTreeHashedLeafs H leafs) (ℓ + 1)).length =
        widthAt (growTreeHashedLeafs H leafs) (ℓ + 1) := rfl
    unfold nodeAt
    rw [hinv]
    have hpr := parentRow_getD H (rowAt (growTreeHashedLeafs H leafs) (ℓ + 1))
      ((widthAt (growTreeHashedLeafs H leafs) (ℓ + 1) - 1) / 2)
      (by rw [hrowlen]; omega)
    rw [hrowlen] at hpr
    have hidxeq : widthAt (growTreeHashedLeafs H leafs) ℓ - 1 =
        (widthAt (growTreeHashedLeafs H leafs) (ℓ + 1) - 1) / 2 := by
      rw [hwid, halfCeil_eq]
      omega
    have h2j : 2 * ((widthAt (growTreeHashedLeafs H leafs) (ℓ + 1) - 1) / 2) =
        widthAt (growTreeHashedLeafs H leafs) (ℓ + 1) - 1 := by omega
    rw [hidxeq, hpr,
      if_neg (by omega : ¬2 * ((widthAt (growTreeHashedLeafs H leafs) (ℓ + 1) - 1) / 2) + 1 <
        widthAt (growTreeHashedLeafs H leafs) (ℓ + 1))]
    rw [h2j]
  · intro path l i cur s hs
    simp only [replay, hs]

/-- Witness for C5: the three-leaf tree (odd leaf row) grown with `Demo.demoHash`,
and one concrete validator step with a non-zero sibling. -/
theorem c5_single_child_fold_witness :
    (nodeAt (growTreeHashedLeafs Demo.demoHash (hashList Demo.demoHash Demo.leaves3)) 1
       (widthAt (growTreeHashedLeafs Demo.demoHash (hashList Demo.demoHash Demo.leaves3)) 1 - 1) =
     Demo.demoHash ((nodeAt (growTreeHashedLeafs Demo.demoHash (hashList Demo.demoHash Demo.leaves3)) 2
       (widthAt (growTreeHashedLeafs Demo.demoHash (hashList Demo.demoHash Demo.leaves3)) 2 - 1)).data))
    ∧ replay Demo.demoHash [Demo.oneNode] 1 2 Demo.oneNode =
        replay Demo.demoHash [Demo.oneNode] 0 1
          (if Demo.oneNode = zeroNode then Demo.demoHash Demo.oneNode.data
           else if getSiblingIdx 2 % 2 = 1 then computeNode Demo.demoHash Demo.oneNode Demo.oneNode
           else computeNode Demo.demoHash Demo.oneNode Demo.oneNode) :=
  ⟨(c5_single_child_fold Demo.demoHash).1 (hashList Demo.demoHash Demo.leaves3) 1
     (by decide) (by decide),
   (c5_single_child_fold Demo.demoHash).2 [Demo.oneNode] 0 2 Demo.oneNode Demo.oneNode
     (by decide)⟩

/-- C7: on a grown tree, `ConstructProof(lvl, idx)` returns an error exactly when
`lvl < 1`, `lvl ≥ Depth`, `idx < 0`, or `idx ≥ width(lvl)`; otherwise it succeeds
and the produced path has exactly `lvl` entries, where the entry at vector index
`ℓ-1` is the sibling node at level `ℓ` along the path from `(lvl, idx)` to the
root, or the zero node when that sibling position lies beyond the row's width. -/
theorem c7_construct_proof (H : List Nat → Node) (leafData : List (List Nat))
    (tree : TreeData) (hgrow : growTree H leafData = some tree) (lvl idx : Int) :
    (constructProof tree lvl idx = none ↔
       lvl < 1 ∨ (tree.depth : Int) ≤ lvl ∨ idx < 0 ∨
         (widthAt tree lvl.toNat : Int) ≤ idx)
    ∧ (∀ pf, constructProof tree lvl idx = some pf →
        pf.path.length = lvl.toNat ∧ pf.lvl = lvl.toNat ∧ pf.idx = idx.toNat ∧
        ∀ ℓ : Nat, 1 ≤ ℓ → ℓ ≤ lvl.toNat →
          pf.path[ℓ - 1]? = some
            (if getSiblingIdx (idx.toNat >>> (lvl.toNat - ℓ)) < widthAt tree ℓ
             then nodeAt tree ℓ (getSiblingIdx (idx.toNat >>> (lvl.toNat - ℓ)))
             else zeroNode)) := by
  obtain ⟨htree, hne⟩ := growTree_eq H leafData tree hgrow
  have hhalf : ∀ ℓ : Nat, ℓ + 1 < tree.depth →
      widthAt tree ℓ = halfCeil (widthAt tree (ℓ + 1)) := by
    intro ℓ hℓ
    rw [htree] at hℓ ⊢
    exact grow_hhalf H _ ℓ hℓ
  by_cases hguard : lvl < 1 ∨ (tree.depth : Int) ≤ lvl
  · rw [constructProof, if_pos hguard]
    refine ⟨Iff.intro (fun _ => ?_) (fun _ => rfl), fun pf h => by simp at h⟩
    rcases hguard with h | h
    · exact Or.inl h
    · exact Or.inr (Or.inl h)
  · push_neg at hguard
    by_cases hidxneg : idx < 0
    · rw [constructProof, if_neg (by push_neg; exact hguard), if_pos hidxneg]
      exact ⟨Iff.intro (fun _ => Or.inr (Or.inr (Or.inl hidxneg))) (fun _ => rfl),
        fun pf h => by simp at h⟩
    · push_neg at hidxneg
      have hlvl1 : 1 ≤ lvl.toNat := by omega
      have hlvld : lvl.toNat < tree.depth := by omega
      rw [constructProof, if_neg (by push_neg; exact hguard), if_neg (by omega)]
      by_cases hw : idx.toNat < widthAt tree lvl.toNat
      · obtain ⟨p, hbp, hlen, hent⟩ := buildPath_spec tree hhalf lvl.toNat idx.toNat
          hlvl1 hlvld hw
        rw [hbp]
        constructor
        · constructor
          · intro h
            simp at h
          · intro h
            exfalso
            rcases h with h | h | h | h <;> omega
        · intro pf hpf
          injection hpf with hpf'
          subst hpf'
          exact ⟨hlen, rfl, rfl, hent⟩
      · push_neg at hw
        rw [buildPath_none_of_ge tree lvl.toNat idx.toNat hlvl1 hw]
        constructor
        · exact Iff.intro (fun _ => Or.inr (Or.inr (Or.inr (by omega)))) (fun _ => rfl)
        · intro pf h
          simp at h

set_option maxRecDepth 20000 in
/-- Witness for C7: the four-leaf tree `Demo.tree4`, position `(2, 2)`. -/
theorem c7_construct_proof_witness :
    (constructProof Demo.tree4 2 2 = none ↔
       (2 : Int) < 1 ∨ (Demo.tree4.depth : Int) ≤ 2 ∨ (2 : Int) < 0 ∨
         (widthAt Demo.tree4 (2 : Int).toNat : Int) ≤ 2)
    ∧ (∀ pf, constructProof Demo.tree4 2 2 = some pf →
        pf.path.length = (2 : Int).toNat ∧ pf.lvl = (2 : Int).toNat ∧
        pf.idx = (2 : Int).toNat ∧
        ∀ ℓ : Nat, 1 ≤ ℓ → ℓ ≤ (2 : Int).toNat →
          pf.path[ℓ - 1]? = some
            (if getSiblingIdx ((2 : Int).toNat >>> ((2 : Int).toNat - ℓ)) < widthAt Demo.tree4 ℓ
             then nodeAt Demo.tree4 ℓ (getSiblingIdx ((2 : Int).toNat >>> ((2 : Int).toNat - ℓ)))
             else zeroNode)) :=
  c7_construct_proof Demo.demoHash Demo.leaves4 Demo.tree4 (by decide) 2 2

/-- C8: `ValidateSubtree` is total for every syntactically well-formed proof (a
level `lvl ≥ 1` with a path of exactly `lvl` entries, §3 of the spec): it
terminates normally with `true` or `false`, never panicking on an out-of-range
path access nor dereferencing the nil `parent`. -/
theorem c8_validate_total (H : List Nat → Node) (pf : ProofData) (subtree root : Node)
    (h1 : 1 ≤ pf.lvl) (h2 : pf.path.length = pf.lvl) :
    ∃ b, validateSubtree H pf subtree root = some b := by
  obtain ⟨r, hr⟩ := replay_isSome H pf.path pf.lvl pf.idx subtree (by omega)
  refine ⟨decide (r = root), ?_⟩
  rw [validateSubtree, if_neg (show ¬pf.lvl = 0 by omega), hr]

/-- Witness for C8: a one-entry zero-sentinel path at level 1. -/
theorem c8_validate_total_witness :
    ∃ b, validateSubtree Demo.demoHash ⟨[zeroNode], 1, 0⟩ Demo.oneNode Demo.oneNode = some b :=
  c8_validate_total Demo.demoHash ⟨[zeroNode], 1, 0⟩ Demo.oneNode Demo.oneNode
    (by decide) (by decide)

/-- C9: every tree grown from `n ≥ 1` leaves (with `n` in the positive range of the
Go `int`) has `Depth = ⌈log₂ n⌉ + 1`, `Leafs = n`, and the stored row at each level
`ℓ` holds exactly `⌈n / 2^(Depth−1−ℓ)⌉` nodes (rows are stored at their exact
widths, so no position lies beyond them). -/
theorem c9_shape (H : List Nat → Node) (leafData : List (List Nat)) (tree : TreeData)
    (hgrow : growTree H leafData = some tree) (hbound : leafData.length < 2 ^ 63) :
    tree.depth = Nat.clog 2 leafData.length + 1 ∧
    tree.leafs = leafData.length ∧
    ∀ ℓ : Nat, ℓ < tree.depth →
      widthAt tree ℓ =
        (leafData.length + 2 ^ (tree.depth - 1 - ℓ) - 1) / 2 ^ (tree.depth - 1 - ℓ) := by
  obtain ⟨htree, hne⟩ := growTree_eq H leafData tree hgrow
  have hlen : (hashList H leafData).length = leafData.length := hashList_length H leafData
  have hn1 : 1 ≤ leafData.length := by
    cases leafData with
    | nil => exact absurd rfl hne
    | cons a l => simp
  have hdep : tree.depth = log2Ceil leafData.length + 1 := by
    rw [htree, grow_depth, hlen]
  have hclog : log2Ceil leafData.length = Nat.clog 2 leafData.length :=
    log2Ceil_eq_clog hn1 (by omega)
  have hwid : ∀ ℓ : Nat, ℓ ≤ log2Ceil leafData.length →
      widthAt tree ℓ = (leafData.length - 1) / 2 ^ (log2Ceil leafData.length - ℓ) + 1 := by
    intro ℓ hℓ
    rw [htree]
    have hthis := grow_widthAt H (hashList H leafData) (by rw [hlen]; omega) ℓ
      (by rw [hlen]; omega)
    rw [hlen] at hthis
    exact hthis
  refine ⟨by rw [hdep, hclog], ?_, ?_⟩
  · have hleafs : tree.leafs = widthAt tree (tree.depth - 1) := rfl
    rw [hleafs, hdep]
    simp only [Nat.add_sub_cancel]
    rw [hwid (log2Ceil leafData.length) (le_refl _)]
    simp only [Nat.sub_self, pow_zero, Nat.div_one]
    omega
  · intro ℓ hℓ
    rw [hwid ℓ (by omega)]
    have hk : tree.depth - 1 - ℓ = log2Ceil leafData.length - ℓ := by omega
    rw [hk]
    have hpos : 0 < 2 ^ (log2Ceil leafData.length - ℓ) := by positivity
    have he : leafData.length + 2 ^ (log2Ceil leafData.length - ℓ) - 1
        = (leafData.length - 1) + 2 ^ (log2Ceil leafData.length - ℓ) := by omega
    rw [he, Nat.add_div_right _ hpos]

set_option maxRecDepth 20000 in
/-- Witness for C9: the three-leaf tree grown with `Demo.demoHash`. -/
theorem c9_shape_witness :
    (growTreeHashedLeafs Demo.demoHash (hashList Demo.demoHash Demo.leaves3)).depth =
        Nat.clog 2 Demo.leaves3.length + 1 ∧
    (growTreeHashedLeafs Demo.demoHash (hashList Demo.demoHash Demo.leaves3)).leafs =
        Demo.leaves3.length ∧
    ∀ ℓ : Nat, ℓ < (growTreeHashedLeafs Demo.demoHash (hashList Demo.demoHash Demo.leaves3)).depth →
      widthAt (growTreeHashedLeafs Demo.demoHash (hashList Demo.demoHash Demo.leaves3)) ℓ =
        (Demo.leaves3.length +
           2 ^ ((growTreeHashedLeafs Demo.demoHash (hashList Demo.demoHash Demo.leaves3)).depth - 1 - ℓ) - 1) /
          2 ^ ((growTreeHashedLeafs Demo.demoHash (hashList Demo.demoHash Demo.leaves3)).depth - 1 - ℓ) :=
  c9_shape Demo.demoHash Demo.leaves3
    (growTreeHashedLeafs Demo.demoHash (hashList Demo.demoHash Demo.leaves3))
    (by decide) (by decide)

/-- C10: for a tree grown from exactly one leaf byte-string, `Depth = 1`, the root
is `truncatedHash` of that leaf's bytes (no combine step is performed), and
`ConstructProof(lvl, idx)` fails for every `(lvl, idx)` since no level satisfies
`1 ≤ lvl ≤ Depth - 1`. -/
theorem c10_single_leaf (H : List Nat → Node) (b : List Nat) (tree : TreeData)
    (hgrow : growTree H [b] = some tree) :
    tree.depth = 1 ∧ tree.getRoot = H b ∧
    ∀ lvl idx : Int, constructProof tree lvl idx = none := by
  obtain ⟨htree, _⟩ := growTree_eq H [b] tree hgrow
  have h0 : log2Ceil [H b].length = 0 := by
    show log2Ceil 1 = 0
    decide
  have hnodes : tree.nodes = [[H b]] := by
    rw [htree]
    show buildLevels H (log2Ceil (hashList H [b]).length) (hashList H [b]) = [[H b]]
    have h1 : hashList H [b] = [H b] := rfl
    rw [h1, h0]
    rfl
  have hdep : tree.depth = 1 := by
    unfold TreeData.depth
    rw [hnodes]
    rfl
  refine ⟨hdep, ?_, ?_⟩
  · unfold TreeData.getRoot
    rw [hnodes]
    rfl
  · intro lvl idx
    rw [constructProof, if_pos (by rw [hdep]; omega)]

/-- Witness for C10: a single one-byte leaf with `Demo.demoHash`. -/
theorem c10_single_leaf_witness :
    (growTreeHashedLeafs Demo.demoHash (hashList Demo.demoHash [[97]])).depth = 1 ∧
    (growTreeHashedLeafs Demo.demoHash (hashList Demo.demoHash [[97]])).getRoot =
      Demo.demoHash [97] ∧
    ∀ lvl idx : Int,
      constructProof (growTreeHashedLeafs Demo.demoHash (hashList Demo.demoHash [[97]]))
        lvl idx = none :=
  c10_single_leaf Demo.demoHash [97] _ (by decide)

theorem scanDiverge_spec (l r : List Node) (hlen : l.length = r.length) :
    ∀ (fuel ctr : Nat), ctr + fuel = l.length →
      ∃ c, scanDiverge l r ctr fuel = some c ∧ ctr ≤ c ∧ c ≤ l.length ∧
        ∀ k : Nat, ctr ≤ k → k < c → l[k]? = r[k]?
  | 0, ctr, h => ⟨ctr, rfl, le_refl _, by omega, fun k h1 h2 => by omega⟩
  | fuel + 1, ctr, h => by
      have hctr : ctr < l.length := by omega
      have hctr' : ctr < r.length := by omega
      by_cases heq : l[ctr] = r[ctr]
      · obtain ⟨c, hc, hc1, hc2, hc3⟩ := scanDiverge_spec l r hlen fuel (ctr + 1) (by omega)
        refine ⟨c, ?_, by omega, hc2, ?_⟩
        · rw [scanDiverge, List.getElem?_eq_getElem hctr, List.getElem?_eq_getElem hctr']
          show (if l[ctr] ≠ r[ctr] then some ctr else scanDiverge l r (ctr + 1) fuel) = some c
          rw [if_neg (by simpa using heq)]
          exact hc
        · intro k hk1 hk2
          rcases Nat.eq_or_lt_of_le hk1 with hk | hk
          · subst hk
            rw [List.getElem?_eq_getElem hctr, List.getElem?_eq_getElem hctr', heq]
          · exact hc3 k (by omega) hk2
      · refine ⟨ctr, ?_, le_refl _, by omega, fun k h1 h2 => by omega⟩
        rw [scanDiverge, List.getElem?_eq_getElem hctr, List.getElem?_eq_getElem hctr']
        show (if l[ctr] ≠ r[ctr] then some ctr else scanDiverge l r (ctr + 1) fuel) = some ctr
        rw [if_pos (by simpa using heq)]

theorem take_eq_of_getElem?_eq (l r : List Node) (c : Nat)
    (h : ∀ k : Nat, k < c → l[k]? = r[k]?) : r.take c = l.take c := by
  apply List.ext_getElem?
  intro n
  rcases Nat.lt_or_ge n c with hn | hn
  · simp only [List.getElem?_take, if_pos hn]
    exact (h n hn).symm
  · rw [List.getElem?_eq_none (by simp [List.length_take]; omega),
      List.getElem?_eq_none (by simp [List.length_take]; omega)]

set_option maxRecDepth 20000 in
/-- Counterexample to C4 as stated: on the four-leaf tree the endpoints `(1, 0)` and
`(2, 0)` are both valid (levels between 1 and `Depth - 1`, indices within the level
widths), yet `ConstructBatchedProof` does not succeed: the divergence scan runs to
the longer path's length and indexes past the end of the shorter path — a runtime
panic in the Go source. -/
theorem c4_batched_counterexample :
    1 ≤ Demo.tree4.depth - 1 ∧ 2 ≤ Demo.tree4.depth - 1 ∧
    0 < widthAt Demo.tree4 1 ∧ 0 < widthAt Demo.tree4 2 ∧
    constructBatchedProof Demo.tree4 1 0 2 0 = .panic := by
  exact ⟨by decide, by decide, by decide, by decide, by decide⟩

/-- C4 (amended): for two valid endpoints at the same level, `ConstructBatchedProof`
succeeds and returns a common prefix plus left and right suffixes such that
`commonPath ++ leftPath` equals the left single proof's path and
`commonPath ++ rightPath` equals the right single proof's path.  (As stated over
endpoints at different levels the claim fails: see the counterexample, where the
divergence scan overruns the shorter path and panics.) -/
theorem c4_batched_amended (H : List Nat → Node) (leafData : List (List Nat))
    (tree : TreeData) (hgrow : growTree H leafData = some tree) (lvl li ri : Nat)
    (h1 : 1 ≤ lvl) (h2 : lvl ≤ tree.depth - 1)
    (hli : li < widthAt tree lvl) (hri : ri < widthAt tree lvl) :
    ∃ bp lp rp,
      constructBatchedProof tree (lvl : Int) (li : Int) (lvl : Int) (ri : Int) = .ok bp ∧
      constructProof tree (lvl : Int) (li : Int) = some lp ∧
      constructProof tree (lvl : Int) (ri : Int) = some rp ∧
      bp.commonPath ++ bp.leftPath = lp.path ∧
      bp.commonPath ++ bp.rightPath = rp.path := by
  obtain ⟨htree, hne⟩ := growTree_eq H leafData tree hgrow
  have hhalf : ∀ ℓ : Nat, ℓ + 1 < tree.depth →
      widthAt tree ℓ = halfCeil (widthAt tree (ℓ + 1)) := by
    intro ℓ hℓ
    rw [htree] at hℓ ⊢
    exact grow_hhalf H _ ℓ hℓ
  have hdep1 : 1 ≤ tree.depth := by omega
  have hlvld : lvl < tree.depth := by omega
  obtain ⟨pl, hbpl, hlenl, _⟩ := buildPath_spec tree hhalf lvl li h1 hlvld hli
  obtain ⟨pr, hbpr, hlenr, _⟩ := buildPath_spec tree hhalf lvl ri h1 hlvld hri
  have hcpl : constructProof tree (lvl : Int) (li : Int) = some ⟨pl, lvl, li⟩ := by
    rw [constructProof]
    rw [if_neg (by push_neg; constructor <;> [exact_mod_cast h1; exact_mod_cast hlvld])]
    rw [if_neg (by omega)]
    simp only [Int.toNat_natCast]
    rw [hbpl]
  have hcpr : constructProof tree (lvl : Int) (ri : Int) = some ⟨pr, lvl, ri⟩ := by
    rw [constructProof]
    rw [if_neg (by push_neg; constructor <;> [exact_mod_cast h1; exact_mod_cast hlvld])]
    rw [if_neg (by omega)]
    simp only [Int.toNat_natCast]
    rw [hbpr]
  have hmax : max pl.length pr.length = pl.length := by omega
  obtain ⟨c, hscan, hc1, hc2, hc3⟩ :=
    scanDiverge_spec pl pr (by omega) pl.length 0 (by omega)
  refine ⟨⟨pl.drop c, pr.drop c, pr.take c, lvl, li, lvl, ri⟩, ⟨pl, lvl, li⟩, ⟨pr, lvl, ri⟩,
    ?_, hcpl, hcpr, ?_, ?_⟩
  · have hguard4 : ¬((lvl : Int) < 1 ∨ (tree.depth : Int) ≤ (lvl : Int) ∨
        (lvl : Int) < 1 ∨ (tree.depth : Int) ≤ (lvl : Int)) := by
      push_neg
      refine ⟨by exact_mod_cast h1, by exact_mod_cast hlvld, by exact_mod_cast h1,
        by exact_mod_cast hlvld⟩
    rw [constructBatchedProof]
    rw [if_neg hguard4]
    rw [if_neg (by omega)]
    rw [hcpl, hcpr]
    simp only [hmax]
    rw [hscan]
    simp only [Int.toNat_natCast]
  · have htake : pr.take c = pl.take c :=
      take_eq_of_getElem?_eq pl pr c (fun k hk => hc3 k (by omega) hk)
    show pr.take c ++ pl.drop c = pl
    rw [htake, List.take_append_drop]
  · show pr.take c ++ pr.drop c = pr
    rw [List.take_append_drop]

set_option maxRecDepth 20000 in
/-- Witness for the amended C4: the equal-level endpoints `(2, 0)` and `(2, 3)` on
the four-leaf tree. -/
theorem c4_batched_amended_witness :
    ∃ bp lp rp,
      constructBatchedProof Demo.tree4 ((2 : Nat) : Int) ((0 : Nat) : Int)
        ((2 : Nat) : Int) ((3 : Nat) : Int) = .ok bp ∧
      constructProof Demo.tree4 ((2 : Nat) : Int) ((0 : Nat) : Int) = some lp ∧
      constructProof Demo.tree4 ((2 : Nat) : Int) ((3 : Nat) : Int) = some rp ∧
      bp.commonPath ++ bp.leftPath = lp.path ∧
      bp.commonPath ++ bp.rightPath = rp.path :=
  c4_batched_amended Demo.demoHash Demo.leaves4 Demo.tree4 (by decide) 2 0 3
    (by decide) (by decide) (by decide) (by decide)

end MerkleTree

namespace DataSegment

open MerkleTree

set_option maxRecDepth 100000 in
/-- C2 (code bug): `ComputeExpectedAuxData` performs no overflow check (the source
carries `// TODO: check overflow`).  At subtree-proof depth 60 and `SizePc = 2^16`
(the spec's scenario S6) the exact product `(1 << 60) * 2^16 = 2^76` exceeds
`2^63`, yet the verifier run below silently wraps the `uint64` product to `0`,
proceeds to encode a CID, and returns success instead of failing with
`SizeOverflow`. -/
theorem c2_overflow_bug :
    computeExpectedAuxData Demo.constHash Demo.align32 Demo.packZero Demo.cidId Demo.pcId
      Demo.ipOverflow Demo.vdOverflow = .ok (List.replicate 32 1) 0 ∧
    2 ^ 63 < (1 <<< ProofData.depth Demo.ipOverflow.proofSubtree) * Demo.vdOverflow.sizePc := by
  exact ⟨by decide, by decide⟩

set_option maxRecDepth 100000 in
/-- C3 (code bug): when replay of the index proof fails, `ComputeExpectedAuxData`
does not propagate the error.  The source binds the error of
`ip.ProofIndex.ComputeRoot(enNode)` at `inclusion.go:78` but never checks it and
immediately dereferences the returned nil commitment: modelled as a runtime panic.
In the run below the index proof's replay fails (index `1` is not below
`1 << 0 = 1`), and the verifier panics instead of returning an
`IndexProofInvalid`-style error. -/
theorem c3_index_error_dropped :
    computeRoot Demo.constHash Demo.ipPanic.proofIndex Demo.oneNode = none ∧
    computeExpectedAuxData Demo.constHash Demo.align32 Demo.packZero Demo.cidId Demo.pcId
      Demo.ipPanic Demo.vdSimple = .panic := by
  exact ⟨by decide, by decide⟩

set_option maxRecDepth 100000 in
/-- Counterexample to C6 as stated: a successful verifier run whose returned
`SizePa` — `0`, after `uint64` wrap-around — differs from the exact product
`(1 << subtreeProof.depth) * SizePc = 2^76`. -/
theorem c6_sizes_counterexample :
    computeExpectedAuxData Demo.constHash Demo.align32 Demo.packZero Demo.cidId Demo.pcId
      Demo.ipOverflow Demo.vdOverflow = .ok (List.replicate 32 1) 0 ∧
    (0 : Nat) ≠ (1 <<< ProofData.depth Demo.ipOverflow.proofSubtree) * Demo.vdOverflow.sizePc := by
  exact ⟨by decide, by decide⟩

/-- C6 (amended): whenever `ComputeExpectedAuxData` returns successfully, the
returned `SizePa` equals `((1 << subtreeProof.depth) * SizePc) % 2^64` — the
wrapping `uint64` product the code computes — and this also equals
`((1 << indexProof.depth) * 64) % 2^64`; the `dataOffset` used to build the index
entry is `(subtreeProof.idx * SizePc) % 2^64`, and whenever `SizePc` is a power of
two (as every valid padded piece size is, §6 of the spec) that `dataOffset` is a
multiple of `SizePc`.  (The exact-product form of the claim fails under
wrap-around: see the counterexample.) -/
theorem c6_sizes_amended {Cid : Type} (H : List Nat → Node)
    (alignOk : Nat → Nat → Bool) (packFr32 : Nat → Nat → List Nat)
    (cidToPc : Cid → Option (List Nat)) (pcToCid : List Nat → Option Cid)
    (ip : InclusionProof) (vd : InclusionVerifierData Cid) (c : Cid) (s : Nat)
    (h : computeExpectedAuxData H alignOk packFr32 cidToPc pcToCid ip vd = .ok c s) :
    s = ((1 <<< ProofData.depth ip.proofSubtree) * vd.sizePc) % 2 ^ 64 ∧
    s = ((1 <<< ProofData.depth ip.proofIndex) * bytesInDataSegmentIndexEntry) % 2 ^ 64 ∧
    dataOffsetOf (ProofData.index ip.proofSubtree) vd.sizePc =
      (ProofData.index ip.proofSubtree * vd.sizePc) % 2 ^ 64 ∧
    (∀ k : Nat, vd.sizePc = 2 ^ k →
      vd.sizePc ∣ dataOffsetOf (ProofData.index ip.proofSubtree) vd.sizePc) := by
  have hdvd : ∀ k : Nat, vd.sizePc = 2 ^ k →
      vd.sizePc ∣ dataOffsetOf (ProofData.index ip.proofSubtree) vd.sizePc := by
    intro k hk
    unfold dataOffsetOf
    rw [hk]
    rcases le_or_lt k 64 with hk64 | hk64
    · rw [Nat.dvd_mod_iff (pow_dvd_pow 2 hk64)]
      exact dvd_mul_left _ _
    · have hdv : (2 : Nat) ^ 64 ∣ ProofData.index ip.proofSubtree * 2 ^ k :=
        Dvd.dvd.mul_left (pow_dvd_pow 2 (by omega)) _
      rw [Nat.mod_eq_zero_of_dvd hdv]
      exact dvd_zero _
  unfold computeExpectedAuxData at h
  dsimp only [] at h
  split at h
  · exact absurd h (by simp)
  · split at h
    · exact absurd h (by simp)
    · split at h
      · exact absurd h (by simp)
      · split at h
        · exact absurd h (by simp)
        · split at h
          · exact absurd h (by simp)
          · split at h
            · exact absurd h (by simp)
            · split at h
              · exact absurd h (by simp)
              · rename_i hsz x1 cidPa hpc
                injection h with h1 h2
                subst h2
                push_neg at hsz
                refine ⟨rfl, ?_, rfl, hdvd⟩
                rw [← hsz]
                rfl

set_option maxRecDepth 100000 in
/-- Witness for the amended C6: the concrete overflow run, where the wrapped sizes
agree at `0` and `SizePc = 2^16` divides the derived offset. -/
theorem c6_sizes_amended_witness :
    computeExpectedAuxData Demo.constHash Demo.align32 Demo.packZero Demo.cidId Demo.pcId
        Demo.ipOverflow Demo.vdOverflow = .ok (List.replicate 32 1) 0 ∧
    ((0 : Nat) =
        ((1 <<< ProofData.depth Demo.ipOverflow.proofSubtree) * Demo.vdOverflow.sizePc) % 2 ^ 64 ∧
      (0 : Nat) =
        ((1 <<< ProofData.depth Demo.ipOverflow.proofIndex) * bytesInDataSegmentIndexEntry) % 2 ^ 64 ∧
      dataOffsetOf (ProofData.index Demo.ipOverflow.proofSubtree) Demo.vdOverflow.sizePc =
        (ProofData.index Demo.ipOverflow.proofSubtree * Demo.vdOverflow.sizePc) % 2 ^ 64 ∧
      (∀ k : Nat, Demo.vdOverflow.sizePc = 2 ^ k →
        Demo.vdOverflow.sizePc ∣
          dataOffsetOf (ProofData.index Demo.ipOverflow.proofSubtree) Demo.vdOverflow.sizePc)) :=
  ⟨by decide,
   c6_sizes_amended Demo.constHash Demo.align32 Demo.packZero Demo.cidId Demo.pcId
     Demo.ipOverflow Demo.vdOverflow (List.replicate 32 1) 0 (by decide)⟩

end DataSegment
